import Mathlib

/-!
Verification of `analyze_colors.py`: a shallow Lean embedding of the
color-frequency pipeline (parsing, normalization, counting, statistics,
PostgreSQL persistence) and the standalone teaching snippets
(recursive linear search, Fibonacci prefix sum).

Python `Counter` objects and database tables are modelled as association
lists `List (String × Nat)` and functions `String → Option Nat`
respectively; Python `float` statistics are modelled over exact `ℚ`.
-/

namespace AnalyzeColors

/-- Python's ASCII whitespace characters, the ones `str.strip()` removes
from the strings of this data set. -/
def pyIsSpace (c : Char) : Bool :=
  c = ' ' ∨ c = '\t' ∨ c = '\n' ∨ c = '\r' ∨ c = '\x0b' ∨ c = '\x0c'

/-- Remove leading and trailing whitespace from a character list. -/
def stripChars (l : List Char) : List Char :=
  ((l.dropWhile pyIsSpace).reverse.dropWhile pyIsSpace).reverse

/-- Python `str.strip()`.  (Defined over `String.data` so that it
reduces in the kernel, unlike `String.trim`.) -/
def pyStrip (s : String) : String := ⟨stripChars s.data⟩

/-- Python `str.upper()` on the ASCII color names of this data set. -/
def pyUpper (s : String) : String := ⟨s.data.map Char.toUpper⟩

/-- Split a character list on the comma character; always returns at
least one (possibly empty) piece, like Python `split`. -/
def splitChars (l : List Char) : List (List Char) :=
  match l with
  | [] => [[]]
  | c :: rest =>
    if c = ',' then [] :: splitChars rest
    else
      match splitChars rest with
      | [] => [[c]]
      | p :: ps => (c :: p) :: ps

/-- Split a string on commas. -/
def pySplitComma (s : String) : List String := (splitChars s.data).map String.mk

/-- Association-list lookup with a default value, modelling Python's
`dict.get(k, d)`. -/
def lookupD {α : Type} (l : List (String × α)) (k : String) (d : α) : α :=
  match l with
  | [] => d
  | (a, b) :: rest => if a = k then b else lookupD rest k d

/-- The three-entry correction table of `normalize_color`
(`analyze_colors.py` lines 21-25). -/
def corrections : List (String × String) :=
  [("BLEW", "BLUE"), ("BLUW", "BLUE"), ("BLU", "BLUE")]

/-- `normalize_color` (`analyze_colors.py` lines 19-26): strip and
upper-case the input, then look it up in the correction table, falling
back to the stripped upper-cased string itself. -/
def normalize_color (name : String) : String :=
  let s := pyUpper (pyStrip name)
  lookupD corrections s s

/-- One iteration of the row-splitting comprehension in `flatten_colors`
(line 31): split the row on commas, strip each piece and keep the
non-empty ones.  Python splits with the regex `,\s*`; since every piece
is subsequently stripped of surrounding whitespace, splitting on the
comma character alone yields the same fragments. -/
def splitRow (line : String) : List String :=
  ((pySplitComma line).map pyStrip).filter (fun p => p ≠ "")

/-- `flatten_colors` (`analyze_colors.py` lines 28-33): normalize every
fragment of every row and concatenate the results. -/
def flatten_colors (rows : List String) : List String :=
  rows.flatMap (fun line => (splitRow line).map normalize_color)

/-- Add one occurrence of `x` to an association list of counts:
the update a Python `Counter` performs per element. -/
def incr (acc : List (String × Nat)) (x : String) : List (String × Nat) :=
  match acc with
  | [] => [(x, 1)]
  | (k, v) :: rest => if k = x then (k, v + 1) :: rest else (k, v) :: incr rest x

/-- `collections.Counter` applied to a list of strings (`main`,
line 138), as an association list in first-occurrence order. -/
def counterOf (l : List String) : List (String × Nat) :=
  l.foldl incr []

/-- Python `max` over the value lists it is applied to in this program
(all of them lists of natural numbers, applied only when non-empty). -/
def listMax (l : List Nat) : Nat := l.foldl max 0

/-- `mode_colors` (`analyze_colors.py` lines 36-40): the colors whose
frequency is maximal, paired with that maximal frequency; `([], 0)` on
the empty table. -/
def mode_colors (freq : List (String × Nat)) : List String × Nat :=
  if freq = [] then ([], 0)
  else
    let maxf := listMax (freq.map Prod.snd)
    ((freq.filter (fun kv => kv.2 = maxf)).map Prod.fst, maxf)

/-- `variance_of_frequencies` (`analyze_colors.py` lines 68-73) over
exact rationals: mean of the values, then mean squared deviation. -/
def variance_of_frequencies (freq : List (String × Nat)) : ℚ :=
  if freq = [] then 0
  else
    let vals := freq.map Prod.snd
    let meanv : ℚ := ((vals.map (fun (v : Nat) => (v : ℚ))).sum) / (vals.length : ℚ)
    ((vals.map (fun (x : Nat) => ((x : ℚ) - meanv) ^ 2)).sum) / (vals.length : ℚ)

/-- Population variance as the spec phrases it: the sum over the
distinct colors (the table entries) of the squared deviation of that
color's count from the mean count, divided by the number of distinct
colors; `0` on the empty table. -/
def specVariance (freq : List (String × Nat)) : ℚ :=
  if freq = [] then 0
  else
    let n : ℚ := (freq.length : ℚ)
    let mean : ℚ := (freq.map (fun p => (p.2 : ℚ))).sum / n
    (freq.map (fun p => ((p.2 : ℚ) - mean) ^ 2)).sum / n

/-- `freq.get("RED", 0)` in `main` (line 145). -/
def red_count (freq : List (String × Nat)) : Nat := lookupD freq "RED" 0

/-- `total = sum(freq.values())` in `main` (line 139). -/
def totalObs (freq : List (String × Nat)) : Nat := (freq.map Prod.snd).sum

/-- `prob_red = red_count / total if total > 0 else 0.0` in `main`
(line 146), over exact rationals. -/
def prob_red (freq : List (String × Nat)) : ℚ :=
  if 0 < totalObs freq then (red_count freq : ℚ) / (totalObs freq : ℚ) else 0

/-- `recursive_search` (`analyze_colors.py` lines 109-114): return `-1`
once the index runs past the end, return the index on a hit, otherwise
recurse on `index + 1`. -/
def recursive_search (lst : List Int) (target : Int) (index : Nat) : Int :=
  if h : lst.length ≤ index then -1
  else if lst.get ⟨index, by omega⟩ = target then (index : Int)
  else recursive_search lst target (index + 1)
termination_by lst.length - index
decreasing_by omega

/-- The loop of `sum_first_n_fibonacci` (lines 124-126): remaining
iterations, `a`, `b`, `total`. -/
def sumFibGo : Nat → Nat → Nat → Nat → Nat
  | 0, _, _, total => total
  | k + 1, a, b, total => sumFibGo k b (a + b) (total + a)

/-- `sum_first_n_fibonacci` (`analyze_colors.py` lines 121-127). -/
def sum_first_n_fibonacci (n : Nat) : Nat := sumFibGo n 0 1 0

/-- The Fibonacci sequence as the spec states it:
`F_0 = 0`, `F_1 = 1`, `F_k = F_(k-1) + F_(k-2)`. -/
def fibSpec : Nat → Nat
  | 0 => 0
  | 1 => 1
  | n + 2 => fibSpec n + fibSpec (n + 1)

/-- The `color_frequencies` relation: a finite map from color to
frequency. -/
def Table : Type := String → Option Nat

/-- The outcomes the database driver can produce, supplied as an
environment: the result of `psycopg2.connect` for given connection
parameters, of the `k`-th `cur.execute`, and of `conn.commit`. -/
structure PgEnv where
  connectRes : String → String → String → String → String → Except String Unit
  execRes : Nat → Except String Unit
  commitRes : Except String Unit

/-- Effect of one `INSERT ... ON CONFLICT (color) DO UPDATE SET
frequency = EXCLUDED.frequency` statement (lines 95-100). -/
def upsertRow (t : Table) (color : String) (count : Nat) : Table :=
  fun c => if c = color then some count else t c

/-- The `for color, count in freq.items()` loop (lines 94-100):
execute the `i`-th statement, then apply its upsert. -/
def execInserts (env : PgEnv) (items : List (String × Nat)) (t : Table)
    (i : Nat) : Except String Table :=
  match items with
  | [] => .ok t
  | (color, count) :: rest => do
      let _ ← env.execRes i
      execInserts env rest (upsertRow t color count) (i + 1)

/-- The success print of `save_to_postgres` (line 104). -/
def successMsg : String :=
  "✅ Colors successfully saved to PostgreSQL table \x27color_frequencies\x27."

/-- The error print of `save_to_postgres` (line 106): the fixed prefix
followed by the exception text.  (Built through `String.mk` so that it
reduces in the kernel.) -/
def errorLine (e : String) : String :=
  ⟨("Error saving to PostgreSQL: ").data ++ e.data⟩

/-- The `try` block of `save_to_postgres` (lines 81-104): connect —
always as user `"postgres"`, empty password, host `"localhost"`, port
`"5432"`, ignoring the corresponding parameters — create the table if
absent, run one upsert per entry of `freq`, and commit.  The state is
`none` while the table does not exist; only a committed run changes the
persisted table. -/
def runBody (env : PgEnv) (freq : List (String × Nat))
    (dbname user password host port : String) (st : Option Table) :
    Except String Table := do
  let _ ← env.connectRes dbname "postgres" "" "localhost" "5432"
  let _ ← env.execRes 0
  let t0 : Table := match st with
    | none => fun _ => none
    | some t => t
  let t ← execInserts env freq t0 1
  let _ ← env.commitRes
  .ok t

/-- `save_to_postgres` (`analyze_colors.py` lines 76-106): run the
`try` block; on success the committed table persists and the success
message is printed; on any exception the broad handler prints the error
message, the function returns normally and the table is unchanged. -/
def save_to_postgres (env : PgEnv) (freq : List (String × Nat))
    (st : Option Table) (dbname user password host port : String) :
    Option Table × List String :=
  match runBody env freq dbname user password host port st with
  | .ok t => (some t, [successMsg])
  | .error e => (st, [errorLine e])

end AnalyzeColors

namespace AnalyzeColors

theorem lookupD_incr (acc : List (String × Nat)) (x c : String) :
    lookupD (incr acc x) c 0 =
      lookupD acc c 0 + (if x = c then 1 else 0) := by
  induction acc with
  | nil =>
    by_cases h : x = c <;> simp [incr, lookupD, h]
  | cons p rest ih =>
    obtain ⟨k, v⟩ := p
    by_cases hk : k = x
    · subst hk
      by_cases h : k = c <;> simp [incr, lookupD, h]
    · by_cases h : k = c
      · have hcx : ¬ c = x := fun hh => hk (h.trans hh)
        have hxc : ¬ x = c := fun hh => hcx hh.symm
        simp [incr, lookupD, hk, h, hcx, hxc]
      · simp [incr, lookupD, hk, h, ih]

theorem lookupD_foldl_incr (l : List String) (acc : List (String × Nat))
    (c : String) :
    lookupD (l.foldl incr acc) c 0 = lookupD acc c 0 + l.count c := by
  induction l generalizing acc with
  | nil => simp [lookupD]
  | cons x xs ih =>
    simp only [List.foldl_cons]
    rw [ih, lookupD_incr, List.count_cons]
    by_cases h : x = c
    · subst h
      simp only [if_pos rfl, beq_self_eq_true, if_true]
      omega
    · have h2 : ¬ c = x := fun hh => h hh.symm
      simp only [if_neg h, beq_iff_eq, if_neg h2]
      omega

/-- The count a `Counter` records for `c` is the number of occurrences
of `c` in the underlying list. -/
theorem lookupD_counterOf (l : List String) (c : String) :
    lookupD (counterOf l) c 0 = l.count c := by
  simpa [counterOf, lookupD] using lookupD_foldl_incr l [] c

/-- C1: the frequency table built by `flatten_colors` followed by
`Counter` maps each normalized color name `c` to the number of
fragments — comma-split, stripped, non-empty pieces of the rows — whose
normalization is `c`. -/
theorem counter_counts_each_normalized_color (rows : List String) (c : String) :
    lookupD (counterOf (flatten_colors rows)) c 0 =
      ((rows.flatMap splitRow).filter (fun p => normalize_color p = c)).length := by
  rw [lookupD_counterOf]
  have h1 : flatten_colors rows = (rows.flatMap splitRow).map normalize_color := by
    rw [flatten_colors, List.map_flatMap]
  rw [h1, List.count_eq_countP, List.countP_map, ← List.countP_eq_length_filter]
  rfl

/-- C2 counterexample: on input `"BLUE"` the function returns `"BLUE"`
although the stripped upper-cased form is not one of the three
misspellings, so "returns BLUE exactly when the stripped upper-cased
form is a misspelling" fails in the only-if direction. -/
theorem normalize_color_exactly_when_fails :
    normalize_color "BLUE" = "BLUE" ∧
      ¬ (pyUpper (pyStrip "BLUE") = "BLEW" ∨ pyUpper (pyStrip "BLUE") = "BLUW" ∨
          pyUpper (pyStrip "BLUE") = "BLU") := by
  decide

/-- C2 (amended): `normalize_color` returns `"BLUE"` whenever the
stripped upper-cased input is one of the three misspellings, otherwise
returns the stripped upper-cased input itself (which may also be
`"BLUE"`), and is deterministic. -/
theorem normalize_color_spec (s : String) :
    ((pyUpper (pyStrip s) = "BLEW" ∨ pyUpper (pyStrip s) = "BLUW" ∨
        pyUpper (pyStrip s) = "BLU") → normalize_color s = "BLUE") ∧
    (¬ (pyUpper (pyStrip s) = "BLEW" ∨ pyUpper (pyStrip s) = "BLUW" ∨
        pyUpper (pyStrip s) = "BLU") → normalize_color s = pyUpper (pyStrip s)) ∧
    (∀ t, s = t → normalize_color s = normalize_color t) := by
  refine ⟨?_, ?_, fun t h => by rw [h]⟩
  · rintro (h | h | h) <;> simp +decide [normalize_color, corrections, lookupD, h]
  · intro h
    push_neg at h
    obtain ⟨h1, h2, h3⟩ := h
    simp [normalize_color, corrections, lookupD, Ne.symm h1, Ne.symm h2, Ne.symm h3]

theorem foldl_max_le (l : List Nat) (a : Nat) :
    a ≤ l.foldl max a ∧ ∀ x ∈ l, x ≤ l.foldl max a := by
  induction l generalizing a with
  | nil => simp
  | cons y ys ih =>
    obtain ⟨h1, h2⟩ := ih (max a y)
    refine ⟨le_trans (le_max_left a y) h1, ?_⟩
    intro x hx
    rcases List.mem_cons.mp hx with rfl | hx
    · exact le_trans (le_max_right a x) h1
    · exact h2 x hx

theorem foldl_max_mem (l : List Nat) (a : Nat) :
    l.foldl max a = a ∨ l.foldl max a ∈ l := by
  induction l generalizing a with
  | nil => simp
  | cons y ys ih =>
    rcases ih (max a y) with h | h
    · rcases max_cases a y with ⟨hm, _⟩ | ⟨hm, _⟩
      · exact Or.inl (by simpa [hm] using h)
      · refine Or.inr ?_
        simp only [List.foldl_cons]
        rw [h, hm]
        exact List.mem_cons_self y ys
    · exact Or.inr (List.mem_cons_of_mem _ h)

theorem listMax_mem (l : List Nat) (h : l ≠ []) : listMax l ∈ l := by
  rcases foldl_max_mem l 0 with h0 | hm
  · rcases l with _ | ⟨y, ys⟩
    · exact absurd rfl h
    · have hy : y ≤ listMax (y :: ys) :=
        (foldl_max_le (y :: ys) 0).2 y (List.mem_cons_self y ys)
      have h0' : listMax (y :: ys) = 0 := h0
      have hy0 : y = 0 := by omega
      subst hy0
      rw [h0']
      exact List.mem_cons_self 0 ys
  · exact hm

/-- C3: on a non-empty table `mode_colors` returns the maximum
frequency together with exactly the colors achieving it; on the empty
table it returns `([], 0)`. -/
theorem mode_colors_spec (freq : List (String × Nat)) :
    (freq = [] → mode_colors freq = ([], 0)) ∧
    (freq ≠ [] →
      (∀ p ∈ freq, p.2 ≤ (mode_colors freq).2) ∧
      (∃ p ∈ freq, p.2 = (mode_colors freq).2) ∧
      (∀ c, c ∈ (mode_colors freq).1 ↔
        ∃ p ∈ freq, p.1 = c ∧ p.2 = (mode_colors freq).2)) := by
  constructor
  · intro h; simp [mode_colors, h]
  · intro h
    have hsnd : (mode_colors freq).2 = listMax (freq.map Prod.snd) := by
      simp [mode_colors, h]
    have hfst : (mode_colors freq).1 =
        (freq.filter (fun kv => kv.2 = listMax (freq.map Prod.snd))).map Prod.fst := by
      simp [mode_colors, h]
    refine ⟨?_, ?_, ?_⟩
    · intro p hp
      rw [hsnd]
      exact (foldl_max_le (freq.map Prod.snd) 0).2 p.2 (List.mem_map_of_mem _ hp)
    · have hmem : listMax (freq.map Prod.snd) ∈ freq.map Prod.snd :=
        listMax_mem (freq.map Prod.snd) (by simpa using h)
      obtain ⟨p, hp, hpm⟩ := List.mem_map.mp hmem
      exact ⟨p, hp, by rw [hsnd]; exact hpm⟩
    · intro c
      rw [hfst, hsnd]
      simp only [List.mem_map, List.mem_filter, decide_eq_true_eq]
      constructor
      · rintro ⟨p, ⟨hp, hm⟩, rfl⟩
        exact ⟨p, hp, rfl, hm⟩
      · rintro ⟨p, hp, rfl, hm⟩
        exact ⟨p, ⟨hp, hm⟩, rfl⟩

/-- C4: `variance_of_frequencies` computes, over exact rationals, the
population variance of the per-color counts as the spec phrases it, and
returns `0` on the empty table. -/
theorem variance_of_frequencies_spec (freq : List (String × Nat)) :
    variance_of_frequencies freq = specVariance freq ∧
      variance_of_frequencies [] = 0 := by
  constructor
  · by_cases h : freq = []
    · simp [variance_of_frequencies, specVariance, h]
    · rw [variance_of_frequencies, specVariance, if_neg h, if_neg h]
      simp only [List.map_map, List.length_map]
      rfl
  · simp [variance_of_frequencies]

theorem lookupD_le_sum (freq : List (String × Nat)) (k : String) :
    lookupD freq k 0 ≤ (freq.map Prod.snd).sum := by
  induction freq with
  | nil => simp [lookupD]
  | cons p rest ih =>
    obtain ⟨a, b⟩ := p
    by_cases h : a = k
    · simp [lookupD, h]
    · simp only [lookupD, if_neg h, List.map_cons, List.sum_cons]
      exact le_trans ih (Nat.le_add_left _ _)

theorem prob_red_props (freq : List (String × Nat)) :
    (totalObs freq = 0 → prob_red freq = 0) ∧
    (0 < totalObs freq →
      prob_red freq = (red_count freq : ℚ) / (totalObs freq : ℚ)) ∧
    0 ≤ prob_red freq ∧ prob_red freq ≤ 1 := by
  have hle : red_count freq ≤ totalObs freq := lookupD_le_sum freq "RED"
  refine ⟨?_, ?_, ?_, ?_⟩
  · intro h; simp [prob_red, h]
  · intro h; rw [prob_red, if_pos h]
  · by_cases h : 0 < totalObs freq
    · rw [prob_red, if_pos h]; positivity
    · rw [prob_red, if_neg h]
  · by_cases h : 0 < totalObs freq
    · rw [prob_red, if_pos h]
      have hpos : (0 : ℚ) < (totalObs freq : ℚ) := by exact_mod_cast h
      rw [div_le_one hpos]
      exact_mod_cast hle
    · rw [prob_red, if_neg h]; norm_num

/-- C5: in the pipeline of `main`, the empirical probability of RED is
the count of the normalized name RED (0 when absent, via the lookup
default) divided by the total number of observations, is 0 when the
total is 0, and always lies in [0, 1]. -/
theorem main_prob_red_spec (rows : List String) :
    (totalObs (counterOf (flatten_colors rows)) = 0 →
      prob_red (counterOf (flatten_colors rows)) = 0) ∧
    (0 < totalObs (counterOf (flatten_colors rows)) →
      prob_red (counterOf (flatten_colors rows)) =
        (red_count (counterOf (flatten_colors rows)) : ℚ) /
          (totalObs (counterOf (flatten_colors rows)) : ℚ)) ∧
    0 ≤ prob_red (counterOf (flatten_colors rows)) ∧
    prob_red (counterOf (flatten_colors rows)) ≤ 1 :=
  prob_red_props (counterOf (flatten_colors rows))

theorem sumFibGo_fib (k : Nat) : ∀ (i t : Nat),
    sumFibGo k (fibSpec i) (fibSpec (i + 1)) t =
      t + ∑ j in Finset.range k, fibSpec (i + j) := by
  induction k with
  | zero => intro i t; simp [sumFibGo]
  | succ k ih =>
    intro i t
    have h2 : fibSpec i + fibSpec (i + 1) = fibSpec (i + 1 + 1) := rfl
    simp only [sumFibGo]
    rw [h2, ih (i + 1) (t + fibSpec i), Finset.sum_range_succ']
    rw [Finset.sum_congr rfl
      (fun (j : Nat) _ => by rw [show i + 1 + j = i + (j + 1) by omega])]
    simp only [Nat.add_zero]
    omega

theorem sum_first_n_fibonacci_eq_sum (n : Nat) :
    sum_first_n_fibonacci n = ∑ j in Finset.range n, fibSpec j := by
  have h := sumFibGo_fib n 0 0
  rw [show fibSpec 0 = 0 from rfl, show fibSpec (0 + 1) = 1 from rfl] at h
  rw [sum_first_n_fibonacci, h]
  simp

theorem sum_range_fibSpec_add_one (n : Nat) :
    (∑ j in Finset.range n, fibSpec j) + 1 = fibSpec (n + 1) := by
  induction n with
  | zero => simp [fibSpec]
  | succ n ih =>
    rw [Finset.sum_range_succ]
    have h2 : fibSpec (n + 2) = fibSpec n + fibSpec (n + 1) := rfl
    rw [h2, ← ih]
    ring

/-- C8: `sum_first_n_fibonacci n` is the sum of the first `n` Fibonacci
numbers `F_0 + ... + F_(n-1)`, which equals `F_(n+1) - 1`, and is `0`
for `n = 0`. -/
theorem sum_first_n_fibonacci_spec (n : Nat) :
    sum_first_n_fibonacci n = ∑ j in Finset.range n, fibSpec j ∧
    sum_first_n_fibonacci n = fibSpec (n + 1) - 1 ∧
    sum_first_n_fibonacci 0 = 0 := by
  have h1 := sum_first_n_fibonacci_eq_sum n
  have h2 := sum_range_fibSpec_add_one n
  exact ⟨h1, by omega, rfl⟩

theorem rs_char (lst : List Int) (t : Int) :
    ∀ (k i : Nat), lst.length - i ≤ k →
      (recursive_search lst t i = -1 ∧
        ∀ j (hj : j < lst.length), i ≤ j → lst.get ⟨j, hj⟩ ≠ t) ∨
      (∃ m, ∃ hm : m < lst.length, i ≤ m ∧
        recursive_search lst t i = (m : Int) ∧ lst.get ⟨m, hm⟩ = t ∧
        ∀ j (hj : j < lst.length), i ≤ j → j < m → lst.get ⟨j, hj⟩ ≠ t) := by
  intro k
  induction k with
  | zero =>
    intro i hk
    have hle : lst.length ≤ i := by omega
    left
    constructor
    · rw [recursive_search]; simp [hle]
    · intro j hj hij
      exact absurd hj (by omega)
  | succ k ih =>
    intro i hk
    by_cases hle : lst.length ≤ i
    · left
      constructor
      · rw [recursive_search]; simp [hle]
      · intro j hj hij
        exact absurd hj (by omega)
    · have hi : i < lst.length := by omega
      by_cases hget : lst.get ⟨i, hi⟩ = t
      · right
        refine ⟨i, hi, le_refl i, ?_, hget, ?_⟩
        · rw [recursive_search, dif_neg hle, if_pos hget]
        · intro j hj hij hji
          exact absurd hij (by omega)
      · rcases ih (i + 1) (by omega) with ⟨hval, hall⟩ | ⟨m, hm, him, hval, hgt, hmin⟩
        · left
          constructor
          · rw [recursive_search, dif_neg hle, if_neg hget, hval]
          · intro j hj hij
            rcases Nat.eq_or_lt_of_le hij with rfl | hlt
            · exact hget
            · exact hall j hj (by omega)
        · right
          refine ⟨m, hm, by omega, ?_, hgt, ?_⟩
          · rw [recursive_search, dif_neg hle, if_neg hget, hval]
          · intro j hj hij hjm
            rcases Nat.eq_or_lt_of_le hij with rfl | hlt
            · exact hget
            · exact hmin j hj (by omega) hjm

/-- C9: `recursive_search lst target 0` returns the smallest index at
which `target` occurs, and `-1` when `target` does not occur; the
recursion is total (the Lean definition terminates by the measure
`lst.length - index`). -/
theorem recursive_search_spec (lst : List Int) (target : Int) :
    (target ∉ lst → recursive_search lst target 0 = -1) ∧
    (target ∈ lst →
      ∃ i, ∃ hi : i < lst.length, recursive_search lst target 0 = (i : Int) ∧
        lst.get ⟨i, hi⟩ = target ∧
        ∀ j (hj : j < lst.length), j < i → lst.get ⟨j, hj⟩ ≠ target) := by
  have h := rs_char lst target lst.length 0 (by omega)
  constructor
  · intro hnm
    rcases h with ⟨hval, _⟩ | ⟨m, hm, _, hval, hgt, _⟩
    · exact hval
    · have : target ∈ lst := by rw [← hgt]; exact lst.get_mem _ _
      exact absurd this hnm
  · intro hmem
    rcases h with ⟨hval, hall⟩ | ⟨m, hm, _, hval, hgt, hmin⟩
    · obtain ⟨⟨j, hj⟩, hget⟩ := List.mem_iff_get.mp hmem
      exact absurd hget (hall j hj (by omega))
    · exact ⟨m, hm, hval, hgt, fun j hj hjm => hmin j hj (by omega) hjm⟩

theorem execInserts_ok (env : PgEnv) :
    ∀ (items : List (String × Nat)) (t t1 : Table) (i : Nat),
      execInserts env items t i = .ok t1 →
      t1 = items.foldl (fun acc p => upsertRow acc p.1 p.2) t := by
  intro items
  induction items with
  | nil =>
    intro t t1 i h
    simp only [execInserts] at h
    cases h
    rfl
  | cons p rest ih =>
    intro t t1 i h
    obtain ⟨color, count⟩ := p
    simp only [execInserts] at h
    cases hres : env.execRes i with
    | error e => rw [hres] at h; exact Except.noConfusion h
    | ok u =>
      rw [hres] at h
      exact ih _ _ _ h

theorem foldl_upsert_not_mem :
    ∀ (items : List (String × Nat)) (t : Table) (c : String),
      c ∉ items.map Prod.fst →
      (items.foldl (fun acc p => upsertRow acc p.1 p.2) t) c = t c := by
  intro items
  induction items with
  | nil => intro t c _; rfl
  | cons p rest ih =>
    intro t c hc
    obtain ⟨a, b⟩ := p
    simp only [List.map_cons, List.mem_cons] at hc
    push_neg at hc
    rw [List.foldl_cons, ih _ c hc.2]
    simp [upsertRow, hc.1]

theorem foldl_upsert_mem :
    ∀ (items : List (String × Nat)) (t : Table) (c : String) (n : Nat),
      (items.map Prod.fst).Nodup → (c, n) ∈ items →
      (items.foldl (fun acc p => upsertRow acc p.1 p.2) t) c = some n := by
  intro items
  induction items with
  | nil => intro t c n _ h; exact absurd h (by simp)
  | cons p rest ih =>
    intro t c n hnd hmem
    obtain ⟨a, b⟩ := p
    simp only [List.map_cons, List.nodup_cons] at hnd
    rcases List.mem_cons.mp hmem with heq | htail
    · injection heq with h1 h2
      subst h1
      subst h2
      rw [List.foldl_cons, foldl_upsert_not_mem rest _ c hnd.1]
      simp [upsertRow]
    · rw [List.foldl_cons]
      exact ih _ c n hnd.2 htail

theorem runBody_ok (env : PgEnv) (freq : List (String × Nat))
    (dbname user password host port : String) (t0 t1 : Table)
    (h : runBody env freq dbname user password host port (some t0) = .ok t1) :
    execInserts env freq t0 1 = .ok t1 := by
  simp only [runBody] at h
  cases hc : env.connectRes dbname "postgres" "" "localhost" "5432" with
  | error e => rw [hc] at h; exact Except.noConfusion h
  | ok u =>
    rw [hc] at h
    cases h0 : env.execRes 0 with
    | error e => rw [h0] at h; exact Except.noConfusion h
    | ok u0 =>
      rw [h0] at h
      cases he : execInserts env freq t0 1 with
      | error e => rw [he] at h; exact Except.noConfusion h
      | ok t =>
        rw [he] at h
        cases hcm : env.commitRes with
        | error ec => rw [hcm] at h; exact Except.noConfusion h
        | ok uc =>
          rw [hcm] at h
          rw [← Except.ok.inj h]

/-- C6: a successful run of `save_to_postgres` commits a table in which
every color of the input frequency table is mapped to its count, while
colors absent from the input keep their previous row; the success
message is printed. -/
theorem save_to_postgres_upserts (env : PgEnv) (freq : List (String × Nat))
    (t0 : Table) (dbname user password host port : String) (t1 : Table)
    (hnd : (freq.map Prod.fst).Nodup)
    (hok : runBody env freq dbname user password host port (some t0) = .ok t1) :
    save_to_postgres env freq (some t0) dbname user password host port
        = (some t1, [successMsg]) ∧
    (∀ c n, (c, n) ∈ freq → t1 c = some n) ∧
    (∀ c, c ∉ freq.map Prod.fst → t1 c = t0 c) := by
  have hins : execInserts env freq t0 1 = .ok t1 :=
    runBody_ok env freq dbname user password host port t0 t1 hok
  have hfold : t1 = freq.foldl (fun acc p => upsertRow acc p.1 p.2) t0 :=
    execInserts_ok env freq t0 t1 1 hins
  refine ⟨?_, ?_, ?_⟩
  · rw [save_to_postgres, hok]
  · intro c n hmem
    rw [hfold]
    exact foldl_upsert_mem freq t0 c n hnd hmem
  · intro c hc
    rw [hfold]
    exact foldl_upsert_not_mem freq t0 c hc

/-- All-success database environment used to instantiate the
persistence theorems. -/
def okEnv : PgEnv :=
  ⟨fun _ _ _ _ _ => .ok (), fun _ => .ok (), .ok ()⟩

/-- Environment whose connection attempt raises. -/
def failEnv : PgEnv :=
  ⟨fun _ _ _ _ _ => .error "boom", fun _ => .ok (), .ok ()⟩

/-- A concrete frequency table. -/
def demoFreq : List (String × Nat) := [("RED", 3), ("GREEN", 2)]

/-- A concrete prior table state: the empty table. -/
def demoT0 : Table := fun _ => none

/-- The table produced by upserting `demoFreq` into `demoT0`. -/
def demoT1 : Table := upsertRow (upsertRow demoT0 "RED" 3) "GREEN" 2

theorem save_to_postgres_upserts_witness :
    save_to_postgres okEnv demoFreq (some demoT0) "colors_db" "postgres"
        "postgres" "localhost" "5432" = (some demoT1, [successMsg]) ∧
    (∀ c n, (c, n) ∈ demoFreq → demoT1 c = some n) ∧
    (∀ c, c ∉ demoFreq.map Prod.fst → demoT1 c = demoT0 c) :=
  save_to_postgres_upserts okEnv demoFreq demoT0 "colors_db" "postgres"
    "postgres" "localhost" "5432" demoT1 (by decide) rfl

theorem successMsg_ne_errorLine (e : String) : successMsg ≠ errorLine e := by
  intro h
  have h1 : successMsg.data.head? = some '✅' := rfl
  have h2 : (errorLine e).data.head? = some 'E' := rfl
  rw [h, h2] at h1
  exact absurd (Option.some.inj h1) (by decide)

/-- C7: whenever the `try` block of `save_to_postgres` raises,
the broad handler catches it: the function returns normally with the
table unchanged, prints the error message, and does not print the
success message. -/
theorem save_to_postgres_catches (env : PgEnv) (freq : List (String × Nat))
    (st : Option Table) (dbname user password host port : String) (e : String)
    (herr : runBody env freq dbname user password host port st = .error e) :
    save_to_postgres env freq st dbname user password host port
        = (st, [errorLine e]) ∧
    successMsg ∉ (save_to_postgres env freq st dbname user password host port).2 := by
  have h1 : save_to_postgres env freq st dbname user password host port
      = (st, [errorLine e]) := by
    rw [save_to_postgres, herr]
  refine ⟨h1, ?_⟩
  rw [h1]
  simp only [List.mem_singleton]
  exact successMsg_ne_errorLine e

theorem save_to_postgres_catches_witness :
    save_to_postgres failEnv demoFreq (some demoT0) "colors_db" "u" "p" "h"
        "5432" = (some demoT0, [errorLine "boom"]) ∧
    successMsg ∉ (save_to_postgres failEnv demoFreq (some demoT0) "colors_db"
        "u" "p" "h" "5432").2 :=
  save_to_postgres_catches failEnv demoFreq (some demoT0) "colors_db" "u" "p"
    "h" "5432" "boom" rfl

/-- C10: `save_to_postgres` ignores its `user`, `password`, `host` and
`port` parameters — the connection is always made with the hard-coded
credentials — so any two assignments to them give identical behavior. -/
theorem save_to_postgres_ignores_credentials (env : PgEnv)
    (freq : List (String × Nat)) (st : Option Table) (dbname : String)
    (user1 password1 host1 port1 user2 password2 host2 port2 : String) :
    save_to_postgres env freq st dbname user1 password1 host1 port1 =
      save_to_postgres env freq st dbname user2 password2 host2 port2 := rfl

end AnalyzeColors
